import Mathlib

/-!
Shallow embedding of the transform core of the Ako image codec
(src/unnamed/part_000 = dwt-lift.c, and src/library/decode.c), together
with theorems settling the frozen claims about it.

Conventions of the embedding:
* int16_t values are modeled as `Int` with an explicit wrap `i16` applied at
  every store into an int16_t slot (C int arithmetic on int16 operands is
  done in int, which never overflows for these formulas, so intermediate
  expressions are plain `Int`).
* C integer division (truncation toward zero) is `Int.tdiv`.
* size_t loop arithmetic is `Nat`; the one place the source relies on
  unsigned wraparound of `len - 2` (for len < 2 the C condition
  `i < len - 2` is true because `len - 2` wraps to a huge value) is written
  as the equivalent condition `i < len - 2 ∨ len < 2` over `Nat`.
* float quantities (the noise gate g and the quantization pipeline) are
  modeled with exact rational arithmetic `ℚ`; the transcendental `powf`
  used only to produce the mk3 noise-gate model is abstracted as a
  function parameter.
* buffers are `List Int`; a read through a pointer is `List.getD _ _ 0`
  (reads past the end of an allocation, which the C source never performs
  on the paths the claims exercise, yield 0).
-/

/-- Wavelet kernel selected at build time by AKO_WAVELET (1, 2 or 3). -/
inductive Wavelet : Type
  | haar : Wavelet
  | cdf53 : Wavelet
  | dd97 : Wavelet
deriving DecidableEq

/-- Wrap of an unbounded integer into the int16_t range [-32768, 32767],
    as performed by a store into an int16_t lvalue. -/
def i16 (x : Int) : Int := (x + 32768) % 65536 - 32768

/-- Even input sample: in[i * 2]. -/
def evenS (inp : List Int) (i : Nat) : Int := inp.getD (2 * i) 0

/-- Odd input sample: in[i * 2 + 1]. -/
def oddS (inp : List Int) (i : Nat) : Int := inp.getD (2 * i + 1) 0

/-- CDF53 highpass prediction (dwt-lift.c lines 60-66): the term subtracted
    from odd[i].  The branch condition `i < len - 2` is size_t arithmetic,
    hence true for every i when len < 2; the else branch duplicates even[i]
    (the "fake last value"). -/
def predCDF53 (len : Nat) (e : Nat → Int) (i : Nat) : Int :=
  if i < len - 2 ∨ len < 2 then Int.tdiv (e i + e (i + 1)) 2
  else Int.tdiv (e i + e i) 2

/-- 97DD highpass prediction (dwt-lift.c lines 71-92).  Needs len > 4,
    otherwise it falls back to the CDF53 prediction.  The clamped even
    samples even_il1/even_ip1/even_ip2 follow lines 76-78. -/
def pred97DD (len : Nat) (e : Nat → Int) (i : Nat) : Int :=
  if 4 < len then
    let even_i := e i
    let even_il1 := if 1 ≤ i then e (i - 1) else even_i
    let even_ip1 := if i + 2 ≤ len then e (i + 1) else even_i
    let even_ip2 := if i + 4 ≤ len then e (i + 2) else even_ip1
    Int.tdiv (-(even_il1 + even_ip2) + 9 * (even_i + even_ip1)) 16
  else predCDF53 len e i

/-- Highpass coefficient stored at out[len + i] (before the degrade stage).
    Haar: odd[i] - (even[i] + odd[i]) / 2 (line 55); the other kernels
    subtract their prediction from odd[i]. -/
def hpAt (w : Wavelet) (len : Nat) (inp : List Int) (i : Nat) : Int :=
  match w with
  | .haar => i16 (oddS inp i - Int.tdiv (evenS inp i + oddS inp i) 2)
  | .cdf53 => i16 (oddS inp i - predCDF53 len (evenS inp) i)
  | .dd97 => i16 (oddS inp i - pred97DD len (evenS inp) i)

/-- Prediction selector for the non-Haar kernels (Haar's highpass update
    also involves the odd sample, so it is not a pure prediction from the
    even samples); auxiliary view used by the invertibility proofs. -/
def predNH (w : Wavelet) (len : Nat) (e : Nat → Int) (i : Nat) : Int :=
  match w with
  | .haar => 0
  | .cdf53 => predCDF53 len e i
  | .dd97 => pred97DD len e i

/-- Lowpass correction term for CDF53/97DD (lines 102-105): the average of
    the stored highpass at i and at i-1, with hp[i] itself duplicated at
    i = 0 (the "fake first value"). -/
def lpCorr (hp : Nat → Int) (i : Nat) : Int :=
  if 0 < i then Int.tdiv (hp i + hp (i - 1)) 4
  else Int.tdiv (hp i + hp i) 4

/-- Lowpass coefficient stored at out[i] (lines 98-110), computed after the
    whole highpass pass and before the degrade stage, so it reads the raw
    (undegraded) highpass values. -/
def lpAt (w : Wavelet) (len : Nat) (inp : List Int) (i : Nat) : Int :=
  match w with
  | .haar => i16 (Int.tdiv (evenS inp i + oddS inp i) 2)
  | _ => i16 (evenS inp i + lpCorr (hpAt w len inp) i)

/-- Noise-gate test of lines 116-117, on the float value of the stored
    highpass coefficient: value / q strictly inside (-g / q, g / q). -/
def gateCond (q : Int) (g : ℚ) (v : Int) : Prop :=
  -g / (q : ℚ) < (v : ℚ) / (q : ℚ) ∧ (v : ℚ) / (q : ℚ) < g / (q : ℚ)

/-- Decidability of the noise gate through a division-free equivalent
    (ℚ division does not kernel-reduce); for the q ≥ 1 calls the driver
    makes, the gate reads -g < value ∧ value < g. -/
instance gateCondDec (q : Int) (g : ℚ) (v : Int) : Decidable (gateCond q g v) :=
  decidable_of_iff
    ((0 < q ∧ -g < (v : ℚ) ∧ (v : ℚ) < g) ∨
      (q < 0 ∧ (v : ℚ) < -g ∧ g < (v : ℚ)))
    (by
      unfold gateCond
      rcases lt_trichotomy q 0 with hq | hq | hq
      · have hq' : ((q : ℚ)) < 0 := by exact_mod_cast hq
        rw [div_lt_div_right_of_neg hq', div_lt_div_right_of_neg hq']
        constructor
        · rintro (⟨h0, _, _⟩ | ⟨_, h1, h2⟩)
          · exact absurd h0 (not_lt.mpr hq.le)
          · exact ⟨h1, h2⟩
        · rintro ⟨h1, h2⟩; exact Or.inr ⟨hq, h1, h2⟩
      · subst hq
        simp only [Int.cast_zero, div_zero]
        constructor
        · rintro (⟨h0, _⟩ | ⟨h0, _⟩) <;> exact absurd h0 (lt_irrefl 0)
        · rintro ⟨h, _⟩; exact absurd h (lt_irrefl 0)
      · have hq' : (0 : ℚ) < (q : ℚ) := by exact_mod_cast hq
        rw [div_lt_div_iff_of_pos_right hq', div_lt_div_iff_of_pos_right hq']
        constructor
        · rintro (⟨_, h1, h2⟩ | ⟨h0, _, _⟩)
          · exact ⟨h1, h2⟩
          · exact absurd h0 (not_lt.mpr hq.le)
        · rintro ⟨h1, h2⟩; exact Or.inl ⟨hq, h1, h2⟩)

/-- Degrade stage applied to one highpass coefficient (lines 113-122):
    zero it when the noise gate fires, then integer-divide by q. -/
def degrade (q : Int) (g : ℚ) (v : Int) : Int :=
  i16 (Int.tdiv (if gateCond q g v then 0 else v) q)

/-- Embedding of sLift1d (dwt-lift.c lines 45-123): from 2*len interleaved
    samples produce out = lowpass(len) ++ degraded highpass(len). -/
def sLift1d (w : Wavelet) (q : Int) (g : ℚ) (len : Nat) (inp : List Int) :
    List Int :=
  (List.range len).map (lpAt w len inp) ++
    (List.range len).map (fun i => degrade q g (hpAt w len inp i))

/-- Row-major gather of a w × h block with row pitch `pitch`, starting at
    flat offset `off` (s2dToLinearH, dwt-lift.c lines 126-136). -/
def s2dToLinearH (w h pitch : Nat) (buf : List Int) (off : Nat) : List Int :=
  ((List.range h).map (fun r => (List.range w).map
      (fun c => buf.getD (off + r * pitch + c) 0))).flatten

/-- Column-major gather of a w × h block with row pitch `pitch`, starting
    at flat offset `off` (s2dToLinearV, dwt-lift.c lines 139-149). -/
def s2dToLinearV (w h pitch : Nat) (buf : List Int) (off : Nat) : List Int :=
  ((List.range w).map (fun c => (List.range h).map
      (fun r => buf.getD (off + c + r * pitch) 0))).flatten

/-- Rows pass of sLift2d, one row (lines 163-175): gather current_w row
    samples (the row stride of the input is current_w + in_pitch),
    duplicate the last sample into slot 2*target_w - 1 when current_w is
    short of 2*target_w ("fake last column"), lift with len = target_w. -/
def liftRow (wav : Wavelet) (q : Int) (g : ℚ) (current_w target_w : Nat)
    (stride : Nat) (a : List Int) (r : Nat) : List Int :=
  let rowv := (List.range current_w).map (fun c => a.getD (stride * r + c) 0)
  let temp :=
    if 2 * target_w - current_w ≠ 0 then rowv ++ [rowv.getD (current_w - 1) 0]
    else rowv
  sLift1d wav q g target_w temp

/-- Rows pass of sLift2d (lines 155-179): lift every row, then duplicate
    the last produced row when current_h is short of 2*target_h ("fake
    last row"), giving the intermediate buffer b as 2*target_h rows of
    2*target_w entries each. -/
def rowsPass (wav : Wavelet) (q : Int) (g : ℚ)
    (current_w current_h target_w target_h : Nat) (stride : Nat)
    (a : List Int) : List (List Int) :=
  let rows := (List.range current_h).map (liftRow wav q g current_w target_w stride a)
  if 2 * target_h - current_h ≠ 0 then rows ++ [rows.getD (current_h - 1) []]
  else rows

/-- Columns pass of sLift2d, one column (lines 182-199): gather the
    2*target_h entries of column col of b and lift with len = target_h. -/
def liftCol (wav : Wavelet) (q : Int) (g : ℚ) (target_h : Nat)
    (b : List (List Int)) (col : Nat) : List Int :=
  let colv := (List.range (2 * target_h)).map (fun r => (b.getD r []).getD col 0)
  sLift1d wav q g target_h colv

/-- Embedding of sLift2d (lines 152-200): the in-place result, a
    2*target_w × 2*target_h block written back with row pitch 2*target_w
    (quadrants LP | HL over LH | HH in the source's B/C/D naming). -/
def sLift2d (wav : Wavelet) (q : Int) (g : ℚ)
    (current_w current_h target_w target_h in_pitch : Nat)
    (a : List Int) : List Int :=
  let b := rowsPass wav q g current_w current_h target_w target_h
    (current_w + in_pitch) a
  ((List.range (2 * target_h)).map (fun r =>
    (List.range (2 * target_w)).map
      (fun c => (liftCol wav q g target_h b c).getD r 0))).flatten

/-- Ceiling halving of a dimension (dwt-lift.c lines 234-235). -/
def ceilHalf (n : Nat) : Nat := if n % 2 = 0 then n / 2 else (n + 1) / 2

/-- Level plan of the pyramid: the list of
    (current_w, current_h, target_w, target_h) for each iteration of the
    while loop of lines 230-323, which runs while both target dimensions
    are still > 2.  Structural recursion on a fuel argument (ceilHalf
    strictly decreases a dimension > 2, so w + h fuel suffices). -/
def levelListAux : Nat → Nat → Nat → List (Nat × Nat × Nat × Nat)
  | 0, _, _ => []
  | fuel + 1, tw, th =>
    if 2 < tw ∧ 2 < th then
      (tw, th, ceilHalf tw, ceilHalf th) :: levelListAux fuel (ceilHalf tw) (ceilHalf th)
    else []

/-- Levels performed by DwtTransform on a tile_w × tile_h tile. -/
def levelList (tile_w tile_h : Nat) : List (Nat × Nat × Nat × Nat) :=
  levelListAux (tile_w + tile_h) tile_w tile_h

/-- Truncation toward zero of a rational: the effect of the C float-to-int
    casts `(int16_t)q` on in-range values. -/
def cTrunc (x : ℚ) : Int := if 0 ≤ x then ⌊x⌋ else -⌊-x⌋

/-- Quantization step passed to sLift2d and stored in the record header
    for a given per-channel user setting and lift level (dwt-lift.c lines
    241-266, 276, 282, 319): user_q is clamped to ≥ 1, halved once per
    lift level (the mk1 model: the loop of lines 251-255 divides by 2.0f
    lift times), the result re-clamped to ≥ 1 (line 264), and the float is
    truncated to int16 at its uses. -/
def qOf (user_q : ℚ) (lift : Nat) : Int :=
  let uq := if user_q < 1 then 1 else user_q
  let mk1_q := uq / 2 ^ lift
  let q := if mk1_q < 1 then 1 else mk1_q
  cTrunc q

/-- Noise-gate threshold for a given per-channel user setting and lift
    level (lines 241-266): user_g is clamped to ≥ 0, the mk3 model
    computes powf(user_g + 1, 1 - lift/(total_lifts - 1)) - 1, and the
    result is re-clamped to ≥ 0 (line 265).  The transcendental powf has
    no exact rational embedding, so it is abstracted as the function
    parameter `powf` (with user_g = 0 every IEEE powf call here returns
    exactly 1, so concrete instantiations below use powf = 1). -/
def gOf (powf : ℚ → ℚ → ℚ) (user_g : ℚ) (lift total_lifts : Nat) : ℚ :=
  let ug := if user_g < 0 then 0 else user_g
  let e : ℚ := 1 - (lift : ℚ) / ((total_lifts : ℚ) - 1)
  let mk3_g := powf (ug + 1) e - 1
  if mk3_g < 0 then 0 else mk3_g

/-- Modelled from the spec: TileTotalLifts (declared in dwt.h, whose
    implementation is not in src/).  Per spec §3, total_lifts is the
    number of times both current width and height can be halved while
    remaining > 2.  It only feeds the mk3 interpolation exponent. -/
def TileTotalLifts : Nat → Nat → Nat → Nat
  | 0, _, _ => 0
  | fuel + 1, w, h =>
    if 2 < ceilHalf w ∧ 2 < ceilHalf h then
      1 + TileTotalLifts fuel (ceilHalf w) (ceilHalf h)
    else 0

/-- Modelled from the spec: TileTotalLength (declared in dwt.h, whose
    implementation is not in src/).  Per spec §3/§6 the coefficient stream
    of a tile holds exactly tile_w × tile_h coefficients per channel, so
    the per-channel output length used to place the backward emission
    cursor is tile_w × tile_h. -/
def TileTotalLength (tile_w tile_h : Nat) : Nat := tile_w * tile_h

/-- Per-level record as emitted into the stream, in ascending memory
    order (lines 296-319): one header coefficient (the int16 truncation
    of q, line 319) followed by the three highpass quadrants, each
    gathered column-major by s2dToLinearV from the lifted 2*tw × 2*th
    block: first C at flat offset tw*th*2 (bottom-left quadrant), then B
    at offset tw (top-right), then D at offset tw + th*2*tw
    (bottom-right). -/
def recordOf (q : Int) (tw th : Nat) (lifted : List Int) : List Int :=
  q :: (s2dToLinearV tw th (2 * tw) lifted (tw * th * 2) ++
    s2dToLinearV tw th (2 * tw) lifted tw ++
    s2dToLinearV tw th (2 * tw) lifted (tw + th * (2 * tw)))

/-- One level of the per-channel pyramid: lift the channel plane and build
    the record with the supplied record builder. -/
def levelStep (wav : Wavelet) (mkRec : Int → Nat → Nat → List Int → List Int)
    (q : Int) (g : ℚ) (cw chh tw th in_pitch : Nat) (plane : List Int) :
    List Int × List Int :=
  let lifted := sLift2d wav q g cw chh tw th in_pitch plane
  (mkRec q tw th lifted, lifted)

/-- Pyramid driver recursion of DwtTransform (lines 216-334),
    parameterized by the record builder.  Levels are processed front to
    back along the level plan; the stream is assembled back to front (the
    emission cursor moves backward), so each level's block of per-channel
    records is appended after the deeper content, and the per-channel
    lowpass planes (lines 326-332) end up at the very front.  Channels
    are processed in reverse order (lines 239, 326), which under the
    decrementing cursor leaves channel 0 first in each block. -/
def driverAux (wav : Wavelet) (mkRec : Int → Nat → Nat → List Int → List Int)
    (powf : ℚ → ℚ → ℚ) (uq ug : Nat → ℚ) (total_lifts channels : Nat) :
    List (Nat × Nat × Nat × Nat) → Nat → Nat → (Nat → List Int) → Nat × Nat →
    List Int
  | [], _, _, planes, (tw, th) =>
    ((List.range channels).map
      (fun ch => s2dToLinearH tw th (tw * 2) (planes ch) 0)).flatten
  | (cw, chh, tw, th) :: rest, lift, in_pitch, planes, _ =>
    let stepOf := fun ch =>
      levelStep wav mkRec (qOf (uq ch) lift)
        (gOf powf (ug ch) lift total_lifts) cw chh tw th in_pitch (planes ch)
    let block := ((List.range channels).map (fun ch => (stepOf ch).1)).flatten
    driverAux wav mkRec powf uq ug total_lifts channels rest (lift + 1) tw
      (fun ch => (stepOf ch).2) (tw, th) ++ block

/-- Embedding of DwtTransform (dwt-lift.c lines 203-335) for the wavelet
    builds (AKO_WAVELET ∈ {1,2,3}): the coefficient stream produced for a
    tile, front to back.  planes ch is channel ch's tile_w × tile_h plane
    (the planes_space padding between planes only affects addressing, not
    values). -/
def DwtTransform (wav : Wavelet) (powf : ℚ → ℚ → ℚ) (uq ug : Nat → ℚ)
    (tile_w tile_h channels : Nat) (planes : Nat → List Int) : List Int :=
  driverAux wav recordOf powf uq ug
    (TileTotalLifts (tile_w + tile_h) tile_w tile_h) channels
    (levelList tile_w tile_h) 0 0 planes (tile_w, tile_h)

/-- Grid cell count of the decoder (decode.c lines 49-57): ceiling
    division of each image dimension by the tile side, multiplied. -/
def sTilesNo (width height tile_size : Nat) : Nat :=
  let w := width / tile_size
  let h := height / tile_size
  let w2 := if width % tile_size ≠ 0 then w + 1 else w
  let h2 := if height % tile_size ≠ 0 then h + 1 else h
  w2 * h2

/-- Decoder loop state: the current grid cursor (col, row) in pixels, the
    number of tile payload chunks consumed from the entropy blob so far
    (the memcpy of decode.c line 91 consumes one tile_memory_size chunk
    and advances the blob pointer), and the image output buffer as a
    function from linear byte index to value (calloc starts it at 0; the
    byte of pixel (x, y), channel c, is (width * y + x) * channels + c). -/
structure DecodeSt : Type where
  col : Nat
  row : Nat
  blob : Nat
  img : Nat → Int

/-- Modelled from the spec: FormatToInterlacedU8RGB (format.c is not under
    src/).  Per spec §6 it interleaves one tile's planar coefficients into
    the destination pixel buffer at the tile's pixel offset: for each
    x, y < tile_size and channel c it writes pixel (col + x, row + y),
    channel c; the value written is abstracted as fmt payload x y c.  The
    call site passes dest = image + (width * row + col) * channels
    (decode.c lines 96-97). -/
def formatWrite (fmt : List Int → Nat → Nat → Nat → Int)
    (tile_size channels width : Nat) (payload : List Int) (col row : Nat)
    (img : Nat → Int) : Nat → Int :=
  fun b =>
    let c := b % channels
    let pix := b / channels
    let x := pix % width
    let y := pix / width
    if col ≤ x ∧ x < col + tile_size ∧ row ≤ y ∧ y < row + tile_size then
      fmt payload (x - col) (y - row) c
    else img b

/-- Tile loop of AkoDecode (decode.c lines 84-107).  Each iteration: if
    the tile would extend past width or height, goto next_tile (state
    unchanged); otherwise consume one chunk and hand it to the format
    collaborator at the tile's offset.  Then advance the cursor: col +=
    tile_size, and when col reaches or passes width reset col to 0 and
    advance row by tile_size. -/
def decodeLoop (fmt : List Int → Nat → Nat → Nat → Int)
    (width height tile_size channels : Nat) (chunks : Nat → List Int) :
    Nat → DecodeSt → DecodeSt
  | 0, st => st
  | fuel + 1, st =>
    let st2 :=
      if st.col + tile_size > width ∨ st.row + tile_size > height then st
      else
        { st with
          blob := st.blob + 1
          img := formatWrite fmt tile_size channels width (chunks st.blob)
            st.col st.row st.img }
    let col2 := st2.col + tile_size
    let st3 :=
      if col2 ≥ width then { st2 with col := 0, row := st2.row + tile_size }
      else { st2 with col := col2 }
    decodeLoop fmt width height tile_size channels chunks fuel st3

/-- Embedding of the tile-processing phase of AkoDecode (decode.c lines
    60-117): width, height, channels and tile_size come from the frame
    header collaborator; chunks n is the n-th tile_memory_size chunk of
    the entropy payload. -/
def AkoDecode (fmt : List Int → Nat → Nat → Nat → Int)
    (width height channels tile_size : Nat) (chunks : Nat → List Int) :
    DecodeSt :=
  decodeLoop fmt width height tile_size channels chunks
    (sTilesNo width height tile_size) ⟨0, 0, 0, fun _ => 0⟩

/-- Expected stream length by the level plan: each level emits, per
    channel, three tw × th highpass bands plus one header coefficient,
    and after the last level each channel's tw × th lowpass plane is
    emitted. -/
def streamLen (channels : Nat) :
    List (Nat × Nat × Nat × Nat) → Nat × Nat → Nat
  | [], (tw, th) => channels * (tw * th)
  | (_, _, tw, th) :: rest, _ =>
    streamLen channels rest (tw, th) + channels * (3 * (tw * th) + 1)

/-- Column-major flattening of the tw × th quadrant whose top-left corner
    sits at row rowOff, column colOff of a 2*tw-pitched block; the
    spec-side view of a quadrant used to state the emission layout. -/
def quadColMajor (tw th rowOff colOff : Nat) (lifted : List Int) : List Int :=
  ((List.range tw).map (fun c => (List.range th).map
      (fun r => lifted.getD ((rowOff + r) * (2 * tw) + (colOff + c)) 0))).flatten

/-- Record layout as amended for C4: the header, then the bottom-left
    quadrant (LH, rows th.., cols 0..), the top-right quadrant (HL, rows
    0.., cols tw..), the bottom-right quadrant (HH), each column-major. -/
def specRecordAmended (q : Int) (tw th : Nat) (lifted : List Int) : List Int :=
  q :: (quadColMajor tw th th 0 lifted ++ quadColMajor tw th 0 tw lifted ++
    quadColMajor tw th th tw lifted)

/-- Record layout as claimed by C4: the header, then HL (top-right
    quadrant), LH (bottom-left quadrant), HH (bottom-right quadrant),
    each column-major. -/
def claimRecordC4 (q : Int) (tw th : Nat) (lifted : List Int) : List Int :=
  q :: (quadColMajor tw th 0 tw lifted ++ quadColMajor tw th th 0 lifted ++
    quadColMajor tw th th tw lifted)

/-- Cells per grid row (respectively column), as computed by sTilesNo. -/
def cellCols (width tile_size : Nat) : Nat :=
  width / tile_size + (if width % tile_size ≠ 0 then 1 else 0)

/-- Sequence of grid cursor positions visited by the tile loop of
    AkoDecode, following the col/row stepping of decode.c lines 100-106. -/
def visitList (width tile_size : Nat) : Nat → Nat × Nat → List (Nat × Nat)
  | 0, _ => []
  | fuel + 1, (c, r) =>
    (c, r) ::
      (if c + tile_size ≥ width then
        visitList width tile_size fuel (0, r + tile_size)
      else visitList width tile_size fuel (c + tile_size, r))

/-- Folding the per-cell body of the tile loop over an explicit list of
    cell positions, tracking the (blob, img) part of the state. -/
def foldCells (fmt : List Int → Nat → Nat → Nat → Int)
    (width height tile_size channels : Nat) (chunks : Nat → List Int) :
    List (Nat × Nat) → Nat × (Nat → Int) → Nat × (Nat → Int)
  | [], s => s
  | (c, r) :: rest, (blob, img) =>
    foldCells fmt width height tile_size channels chunks rest
      (if c + tile_size > width ∨ r + tile_size > height then (blob, img)
       else
        (blob + 1,
          formatWrite fmt tile_size channels width (chunks blob) c r img))

/-- Row-major list of the grid cell origins. -/
def gridCells (cw chh tile_size : Nat) : List (Nat × Nat) :=
  ((List.range chh).map (fun b => (List.range cw).map
      (fun a => (tile_size * a, tile_size * b)))).flatten

/-!
Arithmetic facts about the int16 store wrap.
-/

theorem i16_lb (x : Int) : -32768 ≤ i16 x := by
  unfold i16
  have h := Int.emod_nonneg (x + 32768) (by decide : (65536 : Int) ≠ 0)
  omega

theorem i16_ub (x : Int) : i16 x < 32768 := by
  unfold i16
  have h := Int.emod_lt_of_pos (x + 32768) (by decide : (0 : Int) < 65536)
  omega

theorem i16_eq_self {x : Int} (h1 : -32768 ≤ x) (h2 : x < 32768) :
    i16 x = x := by
  unfold i16
  rw [Int.emod_eq_of_lt (by omega) (by omega)]
  omega

theorem i16_emod (x : Int) : i16 x % 65536 = x % 65536 := by
  unfold i16
  rw [Int.sub_emod, Int.emod_emod_of_dvd _ dvd_rfl, ← Int.sub_emod,
    add_sub_cancel_right]

theorem i16_congr {x y : Int} (h : x % 65536 = y % 65536) :
    i16 x = i16 y := by
  unfold i16
  rw [Int.add_emod x, h, ← Int.add_emod]

theorem i16_i16 (x : Int) : i16 (i16 x) = i16 x :=
  i16_eq_self (i16_lb x) (i16_ub x)

theorem i16_add_left (a b : Int) : i16 (i16 a + b) = i16 (a + b) :=
  i16_congr (by rw [Int.add_emod, i16_emod, ← Int.add_emod])

theorem i16_sub_left (a b : Int) : i16 (i16 a - b) = i16 (a - b) :=
  i16_congr (by rw [Int.sub_emod, i16_emod, ← Int.sub_emod])

/-- Undo an additive lift update: a stored y + t with the exact t
    subtracted back recovers an in-range y. -/
theorem i16_recover_add {y : Int} (t : Int) (h1 : -32768 ≤ y)
    (h2 : y < 32768) : i16 (i16 (y + t) - t) = y := by
  rw [i16_sub_left, add_sub_cancel_right, i16_eq_self h1 h2]

/-- Undo a subtractive lift update: a stored y - t with the exact t added
    back recovers an in-range y. -/
theorem i16_recover_sub {y : Int} (t : Int) (h1 : -32768 ≤ y)
    (h2 : y < 32768) : i16 (i16 (y - t) + t) = y := by
  rw [i16_add_left, sub_add_cancel, i16_eq_self h1 h2]

/-!
Access lemmas for the 1D kernel output.
-/

theorem getD_map_range {α : Type} (f : Nat → α) (d : α) {i n : Nat}
    (h : i < n) : ((List.range n).map f).getD i d = f i := by
  rw [List.getD_eq_getElem _ _ (by simpa using h)]
  simp

theorem map_range_ext {α : Type} {f g : Nat → α} {n : Nat}
    (heq : (List.range n).map f = (List.range n).map g) :
    ∀ i < n, f i = g i := by
  intro i hi
  have h0 : ((List.range n).map f).getD i (f i)
      = ((List.range n).map g).getD i (f i) := by rw [heq]
  rw [getD_map_range _ _ hi, getD_map_range _ _ hi] at h0
  exact h0

theorem sLift1d_length (w : Wavelet) (q : Int) (g : ℚ) (len : Nat)
    (inp : List Int) : (sLift1d w q g len inp).length = 2 * len := by
  simp [sLift1d]; omega

theorem sLift1d_getD_hp (w : Wavelet) (q : Int) (g : ℚ) {len : Nat}
    (inp : List Int) {i : Nat} (h : i < len) :
    (sLift1d w q g len inp).getD (len + i) 0
      = degrade q g (hpAt w len inp i) := by
  rw [sLift1d, List.getD_append_right _ _ _ _ (by simp)]
  simpa using getD_map_range (fun j => degrade q g (hpAt w len inp j)) 0 h

theorem sLift1d_getD_lp (w : Wavelet) (q : Int) (g : ℚ) {len : Nat}
    (inp : List Int) {i : Nat} (h : i < len) :
    (sLift1d w q g len inp).getD i 0 = lpAt w len inp i := by
  rw [sLift1d, List.getD_append _ _ _ _ (by simpa using h)]
  exact getD_map_range _ 0 h

/-- C7: for every input with len ≤ 4 and every q and g, the 97DD kernel's
    full sLift1d output (highpass, lowpass and degrade stage) is
    bit-identical to the CDF53 kernel's output on the same input: the
    five-even-samples guard of dwt-lift.c line 71 routes the whole
    highpass pass through the CDF53 loop (lines 83-92), and the lowpass
    and degrade passes are shared. -/
theorem C7_dd97_len_le_4_equals_cdf53 (q : Int) (g : ℚ) (len : Nat)
    (inp : List Int) (h : len ≤ 4) :
    sLift1d .dd97 q g len inp = sLift1d .cdf53 q g len inp := by
  have hlen : ¬ 4 < len := by omega
  have hp_eq : hpAt .dd97 len inp = hpAt .cdf53 len inp := by
    funext i
    show i16 (oddS inp i - pred97DD len (evenS inp) i) = _
    rw [pred97DD, if_neg hlen]
    rfl
  show (List.range len).map (lpAt .dd97 len inp) ++
      (List.range len).map (fun i => degrade q g (hpAt .dd97 len inp i)) = _
  have lp_eq : lpAt .dd97 len inp = lpAt .cdf53 len inp := by
    funext i
    show i16 (evenS inp i + lpCorr (hpAt .dd97 len inp) i) = _
    rw [hp_eq]
    rfl
  rw [hp_eq, lp_eq]
  rfl

/-- Witness for C7 at a concrete input (len = 2 ≤ 4, q = 3, g = 2). -/
theorem C7_witness :
    sLift1d .dd97 3 2 2 [5, -3, 7, 9] = sLift1d .cdf53 3 2 2 [5, -3, 7, 9] :=
  C7_dd97_len_le_4_equals_cdf53 3 2 2 [5, -3, 7, 9] (by decide)

/-- Monotonicity of the noise-gate window in g for a positive q. -/
theorem gateCond_mono {q : Int} {g1 g2 : ℚ} {v : Int} (hq : 0 < q)
    (hg : g1 ≤ g2) (h : gateCond q g1 v) : gateCond q g2 v := by
  obtain ⟨h1, h2⟩ := h
  have hqQ : (0 : ℚ) ≤ (q : ℚ) := by exact_mod_cast hq.le
  constructor
  · exact lt_of_le_of_lt (div_le_div_of_nonneg_right (neg_le_neg hg) hqQ) h1
  · exact lt_of_lt_of_le h2 (div_le_div_of_nonneg_right hg hqQ)

/-- Pointwise degrade monotonicity: raising the gate can only turn
    nonzero outputs into zero, never the reverse. -/
theorem degrade_ne_zero_mono {q : Int} {g1 g2 : ℚ} {v : Int} (hq : 1 ≤ q)
    (hg : g1 ≤ g2) (h : degrade q g2 v ≠ 0) : degrade q g1 v ≠ 0 := by
  have hgate2 : ¬ gateCond q g2 v := by
    intro hc
    apply h
    rw [degrade, if_pos hc, Int.zero_tdiv]
    rfl
  have hgate1 : ¬ gateCond q g1 v := fun hc => hgate2 (gateCond_mono (by omega) hg hc)
  rw [degrade, if_neg hgate1]
  rw [degrade, if_neg hgate2] at h
  exact h

/-- C8: for the 1D lift kernel with fixed q ≥ 1 and fixed input, the
    number of nonzero highpass coefficients in the sLift1d output (the
    second half of the out buffer) is monotonically non-increasing in the
    noise-gate threshold g. -/
theorem C8_noise_gate_monotone (w : Wavelet) (q : Int) (g1 g2 : ℚ)
    (len : Nat) (inp : List Int) (hq : 1 ≤ q) (hg : g1 ≤ g2) :
    ((sLift1d w q g2 len inp).drop len).countP (fun v => v != 0)
      ≤ ((sLift1d w q g1 len inp).drop len).countP (fun v => v != 0) := by
  rw [sLift1d, List.drop_left' (by simp), sLift1d, List.drop_left' (by simp),
    List.countP_map, List.countP_map]
  apply List.countP_mono_left
  intro i _ hcount
  have h2 : degrade q g2 (hpAt w len inp i) ≠ 0 := by
    intro hc
    rw [Function.comp_apply, hc] at hcount
    exact absurd hcount (by decide)
  have h1 := degrade_ne_zero_mono hq hg h2
  simpa [bne_iff_ne] using h1

/-- Witness for C8 at a concrete input (q = 2 ≥ 1, g1 = 1 ≤ 3 = g2). -/
theorem C8_witness :
    ((sLift1d .cdf53 2 3 2 [5, -3, 7, 9]).drop 2).countP (fun v => v != 0)
      ≤ ((sLift1d .cdf53 2 1 2 [5, -3, 7, 9]).drop 2).countP (fun v => v != 0) :=
  C8_noise_gate_monotone .cdf53 2 1 3 2 [5, -3, 7, 9] (by decide) (by norm_num)

/-- C10 (implicit): the quantization step the driver hands to sLift2d
    (and through it to every sLift1d call) and stores in the record
    header is always ≥ 1: the user value is clamped to ≥ 1 before the
    per-level halving, re-clamped to ≥ 1 afterward, and only then
    truncated toward zero, so the truncation cannot reach 0 and neither
    the integer division by q nor the float divisions by q in the noise
    gate divide by zero. -/
theorem C10_quantization_step_at_least_one (user_q : ℚ) (lift : Nat) :
    1 ≤ qOf user_q lift ∧ ((qOf user_q lift : ℚ) ≠ 0) := by
  have hct : ∀ x : ℚ, 1 ≤ x → 1 ≤ cTrunc x := by
    intro x hx
    rw [cTrunc, if_pos (le_trans zero_le_one hx)]
    exact Int.le_floor.mpr (by exact_mod_cast hx)
  have h1 : 1 ≤ qOf user_q lift := by
    simp only [qOf]
    apply hct
    set m := (if user_q < 1 then 1 else user_q) / 2 ^ lift with hm
    by_cases hc : m < 1
    · rw [if_pos hc]
    · rw [if_neg hc]
      exact not_lt.mp hc
  refine ⟨h1, ?_⟩
  have h2 : (1 : ℚ) ≤ (qOf user_q lift : ℚ) := by exact_mod_cast h1
  intro hc
  rw [hc] at h2
  norm_num at h2

/-- C5 counterexample: the claim says the boundary duplication of the
    CDF53 highpass pass happens exactly at the last index, every earlier
    index using the true neighbor even[i+1].  For len = 2 the index
    i = 0 < len - 1 already takes the duplicated branch: on input
    [0, 0, 2, 0] (q = 1, g = 0) the kernel emits hp[0] = 0, while the
    true-neighbor formula of the claim would emit -1. -/
theorem C5_counterexample :
    (sLift1d .cdf53 1 0 2 [0, 0, 2, 0]).getD (2 + 0) 0 = 0 ∧
      degrade 1 0 (i16 (oddS [0, 0, 2, 0] 0 -
        Int.tdiv (evenS [0, 0, 2, 0] 0 + evenS [0, 0, 2, 0] 1) 2)) = -1 ∧
      (0 : Int) ≠ -1 := by decide

/-- C5 amended: in the CDF53 highpass pass the boundary substitution
    replacing even[i+1] by even[i] is applied at the last two indices
    i = len-2 and i = len-1 (the guard of dwt-lift.c line 62 is
    i < len - 2, not i < len - 1); every index with i + 2 < len uses the
    true neighbor.  Dually, in the lowpass pass the substitution
    replacing hp[i-1] by hp[i] is applied exactly at the first index
    i = 0, as claimed. -/
theorem C5_amended_cdf53_boundary (q : Int) (g : ℚ) (len : Nat)
    (inp : List Int) (i : Nat) (hlen : 2 ≤ len) (hi : i < len) :
    (sLift1d .cdf53 q g len inp).getD (len + i) 0
        = degrade q g (i16 (oddS inp i - Int.tdiv
            (evenS inp i + evenS inp (if i + 2 < len then i + 1 else i)) 2)) ∧
      (sLift1d .cdf53 q g len inp).getD i 0
        = i16 (evenS inp i + Int.tdiv
            (hpAt .cdf53 len inp i +
              hpAt .cdf53 len inp (if i = 0 then i else i - 1)) 4) := by
  constructor
  · rw [sLift1d_getD_hp .cdf53 q g inp hi]
    show degrade q g (i16 (oddS inp i - predCDF53 len (evenS inp) i)) = _
    rw [predCDF53]
    by_cases hc : i + 2 < len
    · rw [if_pos (Or.inl (by omega)), if_pos hc]
    · rw [if_neg (by omega), if_neg hc]
  · rw [sLift1d_getD_lp .cdf53 q g inp hi]
    show i16 (evenS inp i + lpCorr (hpAt .cdf53 len inp) i) = _
    rw [lpCorr]
    by_cases hc : i = 0
    · rw [if_neg (by omega), if_pos hc]
    · rw [if_pos (by omega), if_neg hc]

/-- Witness for C5 amended at len = 4, i = 1 (an interior index with a
    true neighbor), input [1, 2, 3, 4, 5, 6, 7, 8], q = 1, g = 0. -/
theorem C5_witness :
    (2 ≤ 4 ∧ 1 < 4) ∧
      ((sLift1d .cdf53 1 0 4 [1, 2, 3, 4, 5, 6, 7, 8]).getD (4 + 1) 0
          = degrade 1 0 (i16 (oddS [1, 2, 3, 4, 5, 6, 7, 8] 1 - Int.tdiv
              (evenS [1, 2, 3, 4, 5, 6, 7, 8] 1 +
                evenS [1, 2, 3, 4, 5, 6, 7, 8]
                  (if 1 + 2 < 4 then 1 + 1 else 1)) 2)) ∧
        (sLift1d .cdf53 1 0 4 [1, 2, 3, 4, 5, 6, 7, 8]).getD 1 0
          = i16 (evenS [1, 2, 3, 4, 5, 6, 7, 8] 1 + Int.tdiv
              (hpAt .cdf53 4 [1, 2, 3, 4, 5, 6, 7, 8] 1 +
                hpAt .cdf53 4 [1, 2, 3, 4, 5, 6, 7, 8]
                  (if 1 = 0 then 1 else 1 - 1)) 4)) :=
  ⟨⟨by decide, by decide⟩,
    C5_amended_cdf53_boundary 1 0 4 [1, 2, 3, 4, 5, 6, 7, 8] 1
      (by decide) (by decide)⟩

/-- C6 counterexample: the claim says that in the 97DD highpass formula
    every in-range even[i+2] is used.  Take len = 5 and i = 2 = len - 3:
    the reference even[i+2] = even[4] is in range, but the kernel's guard
    (line 78, i <= len - 4) fails, so even[3] is substituted.  On input
    [0,0,0,0,0,0,0,0,16,0] (even samples 0,0,0,0,16; odd samples all 0)
    with q = 1, g = 0 the kernel emits hp[2] = 0, while the claim's
    formula with the true even[4] = 16 gives 1. -/
theorem C6_counterexample :
    (sLift1d .dd97 1 0 5 [0, 0, 0, 0, 0, 0, 0, 0, 16, 0]).getD (5 + 2) 0 = 0 ∧
      degrade 1 0 (i16 (oddS [0, 0, 0, 0, 0, 0, 0, 0, 16, 0] 2 - Int.tdiv
        (-(evenS [0, 0, 0, 0, 0, 0, 0, 0, 16, 0] 1 +
            evenS [0, 0, 0, 0, 0, 0, 0, 0, 16, 0] 4) +
          9 * (evenS [0, 0, 0, 0, 0, 0, 0, 0, 16, 0] 2 +
            evenS [0, 0, 0, 0, 0, 0, 0, 0, 16, 0] 3)) 16)) = 1 ∧
      (0 : Int) ≠ 1 := by decide

/-- C6 amended: in the 97DD highpass formula (len > 4), even[i-1] and
    even[i+1] are clamped to the nearest in-range even sample exactly
    when out of range, but even[i+2] is only used while i + 3 < len
    (i ≤ len - 4): at i = len - 3, where even[i+2] = even[len-1] is
    still in range, the kernel substitutes the even[i+1] sample instead
    (and at i = len - 2 and i = len - 1 it reuses the clamped even[i+1]
    value, which is the nearest in-range sample). -/
theorem C6_amended_dd97_clamp (q : Int) (g : ℚ) (len : Nat)
    (inp : List Int) (i : Nat) (hlen : 4 < len) (hi : i < len) :
    (sLift1d .dd97 q g len inp).getD (len + i) 0
      = degrade q g (i16 (oddS inp i - Int.tdiv
          (-((if 0 < i then evenS inp (i - 1) else evenS inp i) +
              (if i + 3 < len then evenS inp (i + 2)
               else if i + 1 < len then evenS inp (i + 1) else evenS inp i)) +
            9 * (evenS inp i +
              (if i + 1 < len then evenS inp (i + 1) else evenS inp i))) 16)) := by
  rw [sLift1d_getD_hp .dd97 q g inp hi]
  show degrade q g (i16 (oddS inp i - pred97DD len (evenS inp) i)) = _
  simp only [show (0 < i) ↔ (1 ≤ i) from by omega,
    show (i + 1 < len) ↔ (i + 2 ≤ len) from by omega,
    show (i + 3 < len) ↔ (i + 4 ≤ len) from by omega,
    pred97DD, if_pos hlen]

/-- Witness for C6 amended at len = 5, i = 1, input 1..10, q = 1, g = 0. -/
theorem C6_witness :
    (4 < 5 ∧ 1 < 5) ∧
      (sLift1d .dd97 1 0 5 [1, 2, 3, 4, 5, 6, 7, 8, 9, 10]).getD (5 + 1) 0
        = degrade 1 0 (i16 (oddS [1, 2, 3, 4, 5, 6, 7, 8, 9, 10] 1 - Int.tdiv
            (-((if 0 < 1 then evenS [1, 2, 3, 4, 5, 6, 7, 8, 9, 10] (1 - 1)
                 else evenS [1, 2, 3, 4, 5, 6, 7, 8, 9, 10] 1) +
                (if 1 + 3 < 5 then evenS [1, 2, 3, 4, 5, 6, 7, 8, 9, 10] (1 + 2)
                 else if 1 + 1 < 5 then evenS [1, 2, 3, 4, 5, 6, 7, 8, 9, 10] (1 + 1)
                 else evenS [1, 2, 3, 4, 5, 6, 7, 8, 9, 10] 1)) +
              9 * (evenS [1, 2, 3, 4, 5, 6, 7, 8, 9, 10] 1 +
                (if 1 + 1 < 5 then evenS [1, 2, 3, 4, 5, 6, 7, 8, 9, 10] (1 + 1)
                 else evenS [1, 2, 3, 4, 5, 6, 7, 8, 9, 10] 1))) 16)) :=
  ⟨⟨by decide, by decide⟩,
    C6_amended_dd97_clamp 1 0 5 [1, 2, 3, 4, 5, 6, 7, 8, 9, 10] 1
      (by decide) (by decide)⟩

/-!
Invertibility of the 1D kernel at q = 1, g = 0 (claim C2).
-/

/-- With q = 1 and g = 0 the degrade stage is the identity on stored
    values: the gate window (-0, 0) is empty and division by 1 is exact. -/
theorem degrade_one_zero (v : Int) : degrade 1 0 v = i16 v := by
  rw [degrade, if_neg, Int.tdiv_one]
  rintro ⟨h1, h2⟩
  rw [neg_zero, zero_div] at h1
  rw [zero_div] at h2
  exact absurd (lt_trans h1 h2) (lt_irrefl 0)

/-- Every stored highpass coefficient is already int16-wrapped. -/
theorem hpAt_i16 (w : Wavelet) (len : Nat) (inp : List Int) (i : Nat) :
    i16 (hpAt w len inp i) = hpAt w len inp i := by
  cases w <;> exact i16_i16 _

/-- View of the non-Haar highpass as odd minus a prediction computed from
    the even samples only. -/
theorem hpAt_nonhaar {w : Wavelet} (hw : w ≠ .haar) (len : Nat)
    (inp : List Int) (i : Nat) :
    hpAt w len inp i = i16 (oddS inp i - predNH w len (evenS inp) i) := by
  cases w
  · exact absurd rfl hw
  · rfl
  · rfl

/-- View of the non-Haar lowpass as even plus the correction computed
    from the stored highpass values. -/
theorem lpAt_nonhaar {w : Wavelet} (hw : w ≠ .haar) (len : Nat)
    (inp : List Int) (i : Nat) :
    lpAt w len inp i = i16 (evenS inp i + lpCorr (hpAt w len inp) i) := by
  cases w
  · exact absurd rfl hw
  · rfl
  · rfl

/-- Bounds of any read from an int16 buffer (out-of-range reads default
    to 0, which is in range). -/
theorem getD_bounds {inp : List Int}
    (hr : ∀ x ∈ inp, -32768 ≤ x ∧ x < 32768) (k : Nat) :
    -32768 ≤ inp.getD k 0 ∧ inp.getD k 0 < 32768 := by
  by_cases hk : k < inp.length
  · rw [List.getD_eq_getElem _ _ hk]
    exact hr _ (List.getElem_mem hk)
  · rw [List.getD_eq_default _ _ (by omega)]
    exact ⟨by decide, by decide⟩

/-- C2 counterexample: the claim asserts information preservation for all
    three kernels, but the Haar variant as implemented is lossy: its
    lowpass (even[i]+odd[i])/2 discards the low bit and, unlike
    CDF53/97DD, never adds a recoverable correction term.  The distinct
    length-2 inputs [1, 0] and [0, 0] produce identical sLift1d outputs
    at q = 1, g = 0. -/
theorem C2_counterexample :
    sLift1d .haar 1 0 1 [1, 0] = sLift1d .haar 1 0 1 [0, 0] ∧
      ([1, 0] : List Int) ≠ [0, 0] := by decide

/-- C2 amended: for the CDF53 and 97DD kernels with q = 1 and g = 0 the
    forward 1D lift is information-preserving: on int16-valued inputs of
    length 2*len, equal outputs force equal inputs (the even samples are
    recovered by subtracting the lowpass correction, then the odd samples
    by adding the prediction back), so an exact inverse kernel exists.
    The Haar variant is excluded: it is refuted by C2_counterexample. -/
theorem C2_amended_injective_nonhaar (w : Wavelet) (len : Nat)
    (inp1 inp2 : List Int) (hw : w ≠ .haar)
    (hl1 : inp1.length = 2 * len) (hl2 : inp2.length = 2 * len)
    (hr1 : ∀ x ∈ inp1, -32768 ≤ x ∧ x < 32768)
    (hr2 : ∀ x ∈ inp2, -32768 ≤ x ∧ x < 32768)
    (heq : sLift1d w 1 0 len inp1 = sLift1d w 1 0 len inp2) :
    inp1 = inp2 := by
  have hhp : ∀ i < len, hpAt w len inp1 i = hpAt w len inp2 i := by
    intro i hi
    have h0 : (sLift1d w 1 0 len inp1).getD (len + i) 0
        = (sLift1d w 1 0 len inp2).getD (len + i) 0 := by rw [heq]
    rw [sLift1d_getD_hp _ _ _ _ hi, sLift1d_getD_hp _ _ _ _ hi,
      degrade_one_zero, degrade_one_zero, hpAt_i16, hpAt_i16] at h0
    exact h0
  have hlp : ∀ i < len, lpAt w len inp1 i = lpAt w len inp2 i := by
    intro i hi
    have h0 : (sLift1d w 1 0 len inp1).getD i 0
        = (sLift1d w 1 0 len inp2).getD i 0 := by rw [heq]
    rw [sLift1d_getD_lp _ _ _ _ hi, sLift1d_getD_lp _ _ _ _ hi] at h0
    exact h0
  have hcorr : ∀ j < len, lpCorr (hpAt w len inp1) j = lpCorr (hpAt w len inp2) j := by
    intro j hj
    rw [lpCorr, lpCorr]
    by_cases h0 : 0 < j
    · rw [if_pos h0, if_pos h0, hhp j hj, hhp (j - 1) (by omega)]
    · rw [if_neg h0, if_neg h0, hhp j hj]
  have he : ∀ j, evenS inp1 j = evenS inp2 j := by
    intro j
    by_cases hj : j < len
    · have r1 : -32768 ≤ evenS inp1 j ∧ evenS inp1 j < 32768 :=
        getD_bounds hr1 (2 * j)
      have r2 : -32768 ≤ evenS inp2 j ∧ evenS inp2 j < 32768 :=
        getD_bounds hr2 (2 * j)
      have k1 : evenS inp1 j = i16 (lpAt w len inp1 j - lpCorr (hpAt w len inp1) j) := by
        rw [lpAt_nonhaar hw, i16_recover_add _ r1.1 r1.2]
      have k2 : evenS inp2 j = i16 (lpAt w len inp2 j - lpCorr (hpAt w len inp2) j) := by
        rw [lpAt_nonhaar hw, i16_recover_add _ r2.1 r2.2]
      rw [k1, k2, hlp j hj, hcorr j hj]
    · rw [evenS, evenS, List.getD_eq_default _ _ (by omega),
        List.getD_eq_default _ _ (by omega)]
  have hef : evenS inp1 = evenS inp2 := funext he
  have ho : ∀ i < len, oddS inp1 i = oddS inp2 i := by
    intro i hi
    have r1 : -32768 ≤ oddS inp1 i ∧ oddS inp1 i < 32768 :=
      getD_bounds hr1 (2 * i + 1)
    have r2 : -32768 ≤ oddS inp2 i ∧ oddS inp2 i < 32768 :=
      getD_bounds hr2 (2 * i + 1)
    have k1 : oddS inp1 i = i16 (hpAt w len inp1 i + predNH w len (evenS inp1) i) := by
      rw [hpAt_nonhaar hw, i16_recover_sub _ r1.1 r1.2]
    have k2 : oddS inp2 i = i16 (hpAt w len inp2 i + predNH w len (evenS inp2) i) := by
      rw [hpAt_nonhaar hw, i16_recover_sub _ r2.1 r2.2]
    rw [k1, k2, hhp i hi, hef]
  apply List.ext_getElem (by omega)
  intro n h1 h2
  rcases Nat.even_or_odd n with ⟨j, hj⟩ | ⟨j, hj⟩
  · obtain rfl : n = 2 * j := by omega
    have e := he j
    rw [evenS, evenS, List.getD_eq_getElem _ _ h1, List.getD_eq_getElem _ _ h2] at e
    exact e
  · obtain rfl : n = 2 * j + 1 := by omega
    have hjlen : j < len := by omega
    have e := ho j hjlen
    rw [oddS, oddS, List.getD_eq_getElem _ _ h1, List.getD_eq_getElem _ _ h2] at e
    exact e

/-- Witness for C2 amended: CDF53, len = 2, equal concrete inputs. -/
theorem C2_witness :
    (Wavelet.cdf53 ≠ Wavelet.haar ∧
      ([5, -3, 7, 9] : List Int).length = 2 * 2 ∧
      (∀ x ∈ ([5, -3, 7, 9] : List Int), -32768 ≤ x ∧ x < 32768) ∧
      sLift1d .cdf53 1 0 2 [5, -3, 7, 9] = sLift1d .cdf53 1 0 2 [5, -3, 7, 9]) ∧
      ([5, -3, 7, 9] : List Int) = [5, -3, 7, 9] :=
  ⟨⟨by decide, by decide, by decide, rfl⟩,
    C2_amended_injective_nonhaar .cdf53 2 [5, -3, 7, 9] [5, -3, 7, 9]
      (by decide) (by decide) (by decide) (by decide) (by decide) rfl⟩

/-!
Stream lengths emitted by the pyramid driver (claims C1 and C3).
-/

theorem s2dToLinearV_length (w h pitch : Nat) (buf : List Int) (off : Nat) :
    (s2dToLinearV w h pitch buf off).length = w * h := by
  simp [s2dToLinearV, List.length_flatten, Function.comp_def,
    List.map_const', List.sum_replicate, smul_eq_mul]

theorem s2dToLinearH_length (w h pitch : Nat) (buf : List Int) (off : Nat) :
    (s2dToLinearH w h pitch buf off).length = h * w := by
  simp [s2dToLinearH, List.length_flatten, Function.comp_def,
    List.map_const', List.sum_replicate, smul_eq_mul]

theorem recordOf_length (q : Int) (tw th : Nat) (lifted : List Int) :
    (recordOf q tw th lifted).length = 3 * (tw * th) + 1 := by
  simp [recordOf, s2dToLinearV_length]
  ring

/-- Length of the driver output, for any record builder emitting
    3*tw*th + 1 coefficients per (channel, level). -/
theorem driverAux_length (wav : Wavelet)
    (mkRec : Int → Nat → Nat → List Int → List Int)
    (hrec : ∀ q tw th l, (mkRec q tw th l).length = 3 * (tw * th) + 1)
    (powf : ℚ → ℚ → ℚ) (uq ug : Nat → ℚ) (tl channels : Nat) :
    ∀ (lv : List (Nat × Nat × Nat × Nat)) (lift pitch : Nat)
      (planes : Nat → List Int) (dims : Nat × Nat),
      (driverAux wav mkRec powf uq ug tl channels lv lift pitch planes
        dims).length = streamLen channels lv dims := by
  intro lv
  induction lv with
  | nil =>
    intro lift pitch planes dims
    obtain ⟨tw, th⟩ := dims
    simp [driverAux, streamLen, List.length_flatten, Function.comp_def,
      s2dToLinearH_length, List.map_const', List.sum_replicate, smul_eq_mul,
      mul_comm]
  | cons head rest ih =>
    intro lift pitch planes dims
    obtain ⟨cw, chh, tw, th⟩ := head
    simp only [driverAux, streamLen, List.length_append, ih]
    have hb : (((List.range channels).map (fun ch =>
        (levelStep wav mkRec (qOf (uq ch) lift)
          (gOf powf (ug ch) lift tl) cw chh tw th pitch
          (planes ch)).1)).flatten).length = channels * (3 * (tw * th) + 1) := by
      simp [List.length_flatten, Function.comp_def, levelStep, hrec,
        List.map_const', List.sum_replicate, smul_eq_mul]
    omega

/-- C1 amended: the total number of int16 coefficients the Pyramid Driver
    writes is channels × streamLen, where streamLen sums 3*tw*th + 1 per
    level (three highpass bands plus one header) and the final lowpass
    tw*th; because of the per-level header coefficients (and ceiling
    rounding for odd dimensions) this strictly exceeds
    tile_w × tile_h × channels whenever at least one level runs, so the
    backward emission cursor lands at the start of the output buffer only
    if the buffer is sized channels × streamLen, not
    tile_w × tile_h × channels.  The list model writes each record into
    its own segment, so no slot is written twice and none is left
    unwritten within that total. -/
theorem C1_amended_stream_length (wav : Wavelet) (powf : ℚ → ℚ → ℚ)
    (uq ug : Nat → ℚ) (tile_w tile_h channels : Nat)
    (planes : Nat → List Int) :
    (DwtTransform wav powf uq ug tile_w tile_h channels planes).length
        = streamLen channels (levelList tile_w tile_h) (tile_w, tile_h) ∧
      streamLen channels (levelList tile_w tile_h) (tile_w, tile_h)
        = channels * streamLen 1 (levelList tile_w tile_h) (tile_w, tile_h) := by
  constructor
  · exact driverAux_length wav recordOf recordOf_length powf uq ug _ channels
      (levelList tile_w tile_h) 0 0 planes (tile_w, tile_h)
  · generalize (tile_w, tile_h) = dims
    induction levelList tile_w tile_h generalizing dims with
    | nil => obtain ⟨tw, th⟩ := dims; simp [streamLen]
    | cons head rest ih =>
      obtain ⟨cw, chh, tw, th⟩ := head
      simp only [streamLen, ih]
      ring

/-- C1 counterexample: a 4 × 4 single-channel tile (well inside the
    claim's domain tile_w > 2, tile_h > 2, channels ≥ 1) makes the driver
    write 17 coefficients — one level of three 2×2 bands plus a header
    (13) and a 2×2 lowpass (4) — not tile_w × tile_h × channels = 16; the
    spec-modelled TileTotalLength places the cursor 16 slots from the
    start, so the cursor does not land at the start of the buffer. -/
theorem C1_counterexample :
    (2 < 4 ∧ 2 < 4 ∧ 1 ≤ 1) ∧
      (DwtTransform .haar (fun _ _ => 1) (fun _ => 1) (fun _ => 0) 4 4 1
        (fun _ => List.replicate 16 0)).length = 17 ∧
      TileTotalLength 4 4 * 1 = 16 ∧ 17 ≠ 4 * 4 * 1 :=
  ⟨by decide, by with_unfolding_all rfl, by decide, by decide⟩

/-- C3 amended: on a 5 × 5 single-channel tile the driver performs two
    decomposition levels, not one (the while loop runs again at 3 × 3
    since 3 > 2): level 0 emits three 3×3 bands plus a header (28), level
    1 three 2×2 bands plus a header (13), and the final lowpass is 2×2
    (4), for 45 coefficients in total, independent of the kernel and the
    quantization settings. -/
theorem C3_amended_5x5_two_levels (wav : Wavelet) (powf : ℚ → ℚ → ℚ)
    (uq ug : Nat → ℚ) (planes : Nat → List Int) :
    levelList 5 5 = [(5, 5, 3, 3), (3, 3, 2, 2)] ∧
      (levelList 5 5).length = 2 ∧
      (DwtTransform wav powf uq ug 5 5 1 planes).length = 45 := by
  refine ⟨by decide, by decide, ?_⟩
  show (driverAux wav recordOf powf uq ug _ 1 (levelList 5 5) 0 0 planes
    (5, 5)).length = 45
  rw [driverAux_length wav recordOf recordOf_length powf uq ug _ 1
    (levelList 5 5) 0 0 planes (5, 5)]
  decide

/-- C3 counterexample: the 5 × 5 single-channel tile yields two levels
    and 45 emitted coefficients at a concrete input, refuting the claimed
    single level (total_lifts = 1 as spec-modelled) and 25-coefficient
    stream of three 3×3 bands plus one 3×3 lowpass. -/
theorem C3_counterexample :
    (levelList 5 5).length = 2 ∧ 2 ≠ 1 ∧
      (DwtTransform .haar (fun _ _ => 1) (fun _ => 1) (fun _ => 0) 5 5 1
        (fun _ => List.replicate 25 0)).length = 45 ∧
      45 ≠ 25 :=
  ⟨by decide, by decide, by with_unfolding_all rfl, by decide⟩

/-!
Record layout inside the stream (claim C4).
-/

/-- The record the driver emits coincides, for every lifted block, with
    the spec-side layout "header, then bottom-left quadrant (LH), then
    top-right quadrant (HL), then bottom-right quadrant (HH), each
    column-major": the three s2dToLinearV source offsets 2*tw*th, tw and
    tw + th*(2*tw) are the flat addresses of rows th/0/th and columns
    0/tw/tw of the 2*tw-pitched block. -/
theorem recordOf_eq_specAmended (q : Int) (tw th : Nat) (lifted : List Int) :
    recordOf q tw th lifted = specRecordAmended q tw th lifted := by
  have hquad : ∀ rowOff colOff off : Nat,
      (∀ r c : Nat, off + c + r * (2 * tw) = (rowOff + r) * (2 * tw) + (colOff + c)) →
      s2dToLinearV tw th (2 * tw) lifted off = quadColMajor tw th rowOff colOff lifted := by
    intro rowOff colOff off hoff
    unfold s2dToLinearV quadColMajor
    congr 1
    apply List.map_congr_left
    intro c _
    apply List.map_congr_left
    intro r _
    rw [hoff r c]
  unfold recordOf specRecordAmended
  rw [hquad th 0 (tw * th * 2) (fun r c => by ring),
    hquad 0 tw tw (fun r c => by ring),
    hquad th tw (tw + th * (2 * tw)) (fun r c => by ring)]

/-- C4 amended: at each level and channel the emitted record is the
    header q followed by the bottom-left quadrant (LH), then the
    top-right quadrant (HL), then the bottom-right quadrant (HH), each
    flattened column-major — the driver's whole stream equals the stream
    assembled from that layout. -/
theorem C4_amended_record_layout (wav : Wavelet) (powf : ℚ → ℚ → ℚ)
    (uq ug : Nat → ℚ) (tile_w tile_h channels : Nat)
    (planes : Nat → List Int) :
    DwtTransform wav powf uq ug tile_w tile_h channels planes
      = driverAux wav specRecordAmended powf uq ug
          (TileTotalLifts (tile_w + tile_h) tile_w tile_h) channels
          (levelList tile_w tile_h) 0 0 planes (tile_w, tile_h) := by
  unfold DwtTransform
  rw [show recordOf = specRecordAmended from
    funext fun q => funext fun tw => funext fun th => funext fun l =>
      recordOf_eq_specAmended q tw th l]

/-!
Decode tile loop (claim C9): loop/fold equivalence and grid coverage.
-/

/-- The tile loop is the fold of the per-cell body over the list of
    visited cursor positions. -/
theorem decodeLoop_eq_foldCells (fmt : List Int → Nat → Nat → Nat → Int)
    (w h ts ch : Nat) (chunks : Nat → List Int) :
    ∀ (fuel : Nat) (st : DecodeSt),
      (decodeLoop fmt w h ts ch chunks fuel st).blob
          = (foldCells fmt w h ts ch chunks
              (visitList w ts fuel (st.col, st.row)) (st.blob, st.img)).1 ∧
        (decodeLoop fmt w h ts ch chunks fuel st).img
          = (foldCells fmt w h ts ch chunks
              (visitList w ts fuel (st.col, st.row)) (st.blob, st.img)).2 := by
  intro fuel
  induction fuel with
  | zero => intro st; exact ⟨rfl, rfl⟩
  | succ n ih =>
    intro st
    simp only [decodeLoop, visitList, foldCells]
    by_cases hskip : st.col + ts > w ∨ st.row + ts > h
    · rw [if_pos hskip, if_pos hskip]
      by_cases hcol : st.col + ts ≥ w
      · rw [if_pos hcol, if_pos hcol]
        exact ih _
      · rw [if_neg hcol, if_neg hcol]
        exact ih _
    · rw [if_neg hskip, if_neg hskip]
      by_cases hcol : st.col + ts ≥ w
      · rw [if_pos hcol, if_pos hcol]
        exact ih _
      · rw [if_neg hcol, if_neg hcol]
        exact ih _

/-- The grid column count covers the width: ts * cellCols ≥ width. -/
theorem cellCols_mul_ge (w ts : Nat) (hts : 0 < ts) :
    w ≤ ts * cellCols w ts := by
  have h1 := Nat.mod_add_div w ts
  have h2 := Nat.mod_lt w hts
  by_cases h : w % ts = 0
  · have hcw : cellCols w ts = w / ts := by simp [cellCols, h]
    rw [hcw]
    omega
  · have hcw : cellCols w ts = w / ts + 1 := by simp [cellCols, h]
    rw [hcw]
    have hd : ts * (w / ts + 1) = ts * (w / ts) + ts := by ring
    omega

/-- Strictly before the last grid column, the next cell still starts
    inside the width. -/
theorem cellCols_mul_lt (w ts a : Nat) (hts : 0 < ts)
    (ha : a + 1 < cellCols w ts) : ts * a + ts < w := by
  have h1 := Nat.mod_add_div w ts
  have h2 := Nat.mod_lt w hts
  have hmul : ts * (a + 2) = ts * a + ts + ts := by ring
  by_cases h : w % ts = 0
  · have hcw : cellCols w ts = w / ts := by simp [cellCols, h]
    rw [hcw] at ha
    have hle : ts * (a + 2) ≤ ts * (w / ts) :=
      mul_le_mul_left' (by omega) ts
    omega
  · have hcw : cellCols w ts = w / ts + 1 := by simp [cellCols, h]
    rw [hcw] at ha
    have hle : ts * (a + 1) ≤ ts * (w / ts) :=
      mul_le_mul_left' (by omega) ts
    have hmul1 : ts * (a + 1) = ts * a + ts := by ring
    omega

/-- One row of visits: starting at column index a with exactly k = cw - a
    cells left in the row, the loop visits those cells then wraps to
    column 0 of the next row. -/
theorem visit_row (w ts : Nat) (hts : 0 < ts) :
    ∀ (k a r rest : Nat), a + (k + 1) = cellCols w ts →
      visitList w ts ((k + 1) + rest) (ts * a, r)
        = ((List.range' a (k + 1)).map (fun j => (ts * j, r))) ++
            visitList w ts rest (0, r + ts) := by
  intro k
  induction k with
  | zero =>
    intro a r rest ha
    have hge : w ≤ ts * a + ts := by
      have hcov := cellCols_mul_ge w ts hts
      have hcc : cellCols w ts = a + 1 := by omega
      rw [hcc] at hcov
      have hmul : ts * (a + 1) = ts * a + ts := by ring
      omega
    have hf : 0 + 1 + rest = rest + 1 := by omega
    rw [hf]
    simp only [visitList, List.range'_one, List.map_cons, List.map_nil]
    rw [if_pos (by omega)]
    rfl
  | succ k ih =>
    intro a r rest ha
    have hstep : ts * a + ts < w := cellCols_mul_lt w ts a hts (by omega)
    have hfuel : (k + 1 + 1) + rest = ((k + 1) + rest) + 1 := by omega
    rw [hfuel]
    simp only [visitList]
    rw [if_neg (by omega)]
    have hnext : ts * a + ts = ts * (a + 1) := by ring
    rw [hnext, ih (a + 1) r rest (by omega)]
    rw [List.range'_succ]
    rfl

/-- Full-grid coverage: starting at the left edge with m rows' worth of
    fuel, the loop visits m whole rows of cells. -/
theorem visit_grid (w ts : Nat) (hts : 0 < ts) (hw : 0 < w) :
    ∀ (m b0 : Nat), visitList w ts (m * cellCols w ts) (0, ts * b0)
      = ((List.range m).map (fun j => (List.range (cellCols w ts)).map
          (fun a => (ts * a, ts * (b0 + j))))).flatten := by
  intro m
  induction m with
  | zero => intro b0; simp [visitList]
  | succ m ih =>
    intro b0
    have hcw : 0 < cellCols w ts := by
      have := cellCols_mul_ge w ts hts
      by_contra hc
      have h0 : cellCols w ts = 0 := by omega
      rw [h0] at this
      omega
    have hsplit : (m + 1) * cellCols w ts
        = ((cellCols w ts - 1) + 1) + m * cellCols w ts := by
      have : (m + 1) * cellCols w ts = cellCols w ts + m * cellCols w ts := by
        ring
      omega
    rw [hsplit]
    have hzero : (0 : Nat) = ts * 0 := by ring
    rw [show ((0 : Nat), ts * b0) = (ts * 0, ts * b0) from by rw [← hzero]]
    rw [visit_row w ts hts (cellCols w ts - 1) 0 (ts * b0)
      (m * cellCols w ts) (by omega)]
    rw [show ts * b0 + ts = ts * (b0 + 1) from by ring, ih (b0 + 1)]
    rw [List.range_succ_eq_map, List.map_cons, List.flatten_cons]
    congr 1
    · rw [show (cellCols w ts - 1) + 1 = cellCols w ts from by omega,
        ← List.range_eq_range']
      apply List.map_congr_left
      intro a _
      rw [Nat.add_zero]
    · rw [List.map_map]
      congr 1
      apply List.map_congr_left
      intro j _
      simp only [Function.comp_apply]
      apply List.map_congr_left
      intro a _
      rw [show b0 + 1 + j = b0 + Nat.succ j from by omega]

/-- The tiles_no iterations of the tile loop visit exactly the row-major
    grid of ceil(w/ts) × ceil(h/ts) cell origins. -/
theorem visit_eq_grid (w h ts : Nat) (hts : 0 < ts) :
    visitList w ts (sTilesNo w h ts) (0, 0)
      = gridCells (cellCols w ts) (cellCols h ts) ts := by
  have hst : sTilesNo w h ts = cellCols h ts * cellCols w ts := by
    simp only [sTilesNo, cellCols]
    by_cases h1 : w % ts ≠ 0 <;> by_cases h2 : h % ts ≠ 0 <;>
      simp [h1, h2] <;> ring
  rw [hst]
  by_cases hw : 0 < w
  · have := visit_grid w ts hts hw (cellCols h ts) 0
    rw [show ((0 : Nat), (0 : Nat)) = ((0 : Nat), ts * 0) from by
      rw [Nat.mul_zero], this, gridCells]
    congr 1
    apply List.map_congr_left
    intro b _
    apply List.map_congr_left
    intro a _
    rw [Nat.zero_add]
  · have hw0 : w = 0 := by omega
    subst hw0
    have hc0 : cellCols 0 ts = 0 := by simp [cellCols]
    rw [hc0, Nat.mul_zero]
    simp [visitList, gridCells, hc0]

theorem foldCells_append (fmt : List Int → Nat → Nat → Nat → Int)
    (w h ts ch : Nat) (chunks : Nat → List Int) :
    ∀ (L1 L2 : List (Nat × Nat)) (s : Nat × (Nat → Int)),
      foldCells fmt w h ts ch chunks (L1 ++ L2) s
        = foldCells fmt w h ts ch chunks L2
            (foldCells fmt w h ts ch chunks L1 s) := by
  intro L1
  induction L1 with
  | nil => intro L2 s; rfl
  | cons head rest ih =>
    intro L2 s
    obtain ⟨c, r⟩ := head
    obtain ⟨blob, img⟩ := s
    simp only [List.cons_append, foldCells]
    exact ih L2 _

/-- Blob consumption over a cell list: exactly one chunk per full cell. -/
theorem foldCells_blob (fmt : List Int → Nat → Nat → Nat → Int)
    (w h ts ch : Nat) (chunks : Nat → List Int) :
    ∀ (L : List (Nat × Nat)) (s : Nat × (Nat → Int)),
      (foldCells fmt w h ts ch chunks L s).1
        = s.1 + L.countP (fun cell => decide (cell.1 + ts ≤ w ∧ cell.2 + ts ≤ h)) := by
  intro L
  induction L with
  | nil => intro s; simp [foldCells]
  | cons head rest ih =>
    intro s
    obtain ⟨c, r⟩ := head
    obtain ⟨blob, img⟩ := s
    simp only [foldCells, List.countP_cons]
    by_cases hfull : c + ts ≤ w ∧ r + ts ≤ h
    · rw [if_neg (by omega), ih]
      simp only [decide_eq_true_eq, if_pos hfull]
      omega
    · rw [if_pos (by omega), ih]
      simp only [decide_eq_true_eq, if_neg hfull]
      omega

/-- Value of a formatWrite at a pixel byte: written iff the pixel lies in
    the tile's rectangle. -/
theorem formatWrite_pixel (fmt : List Int → Nat → Nat → Nat → Int)
    (ts ch w : Nat) (payload : List Int) (cc rr : Nat) (img : Nat → Int)
    (X Y c : Nat) (hX : X < w) (hc : c < ch) :
    formatWrite fmt ts ch w payload cc rr img ((w * Y + X) * ch + c)
      = if cc ≤ X ∧ X < cc + ts ∧ rr ≤ Y ∧ Y < rr + ts then
          fmt payload (X - cc) (Y - rr) c
        else img ((w * Y + X) * ch + c) := by
  have hch : 0 < ch := by omega
  have hw : 0 < w := by omega
  have hmod : ((w * Y + X) * ch + c) % ch = c := by
    rw [mul_comm (w * Y + X) ch, Nat.mul_add_mod, Nat.mod_eq_of_lt hc]
  have hdiv : ((w * Y + X) * ch + c) / ch = w * Y + X := by
    rw [mul_comm (w * Y + X) ch, Nat.mul_add_div hch, Nat.div_eq_of_lt hc,
      Nat.add_zero]
  have hmod2 : (w * Y + X) % w = X := by
    rw [Nat.mul_add_mod, Nat.mod_eq_of_lt hX]
  have hdiv2 : (w * Y + X) / w = Y := by
    rw [Nat.mul_add_div hw, Nat.div_eq_of_lt hX, Nat.add_zero]
  simp only [formatWrite, hmod, hdiv, hmod2, hdiv2]

/-- An aligned tile containing a pixel column is the pixel's own cell. -/
theorem cell_eq_of_contains {ts X a : Nat} (h1 : ts * a ≤ X)
    (h2 : X < ts * a + ts) : a = X / ts := by
  symm
  apply Nat.div_eq_of_lt_le
  · rw [mul_comm]; exact h1
  · rw [show (a + 1) * ts = ts * a + ts from by ring]; exact h2

/-- Frame lemma: cells that do not contain the pixel (or are skipped as
    boundary cells) never change the pixel's byte. -/
theorem foldCells_img_miss (fmt : List Int → Nat → Nat → Nat → Int)
    (w h ts ch : Nat) (chunks : Nat → List Int) (X Y c : Nat)
    (hX : X < w) (hc : c < ch) :
    ∀ (L : List (Nat × Nat)) (s : Nat × (Nat → Int)),
      (∀ cell ∈ L, cell.1 + ts ≤ w → cell.2 + ts ≤ h →
        ¬(cell.1 ≤ X ∧ X < cell.1 + ts ∧ cell.2 ≤ Y ∧ Y < cell.2 + ts)) →
      (foldCells fmt w h ts ch chunks L s).2 ((w * Y + X) * ch + c)
        = s.2 ((w * Y + X) * ch + c) := by
  intro L
  induction L with
  | nil => intro s _; rfl
  | cons head rest ih =>
    intro s hmiss
    obtain ⟨cc, rr⟩ := head
    obtain ⟨blob, img⟩ := s
    simp only [foldCells]
    by_cases hskip : cc + ts > w ∨ rr + ts > h
    · rw [if_pos hskip]
      exact ih _ (fun cell hm => hmiss cell (List.mem_cons_of_mem _ hm))
    · rw [if_neg hskip]
      rw [ih _ (fun cell hm => hmiss cell (List.mem_cons_of_mem _ hm))]
      exact formatWrite_pixel fmt ts ch w (chunks blob) cc rr img X Y c hX hc
        |>.trans (if_neg (hmiss (cc, rr) (List.mem_cons_self _ _)
          (by omega) (by omega)))

/-- Count of true values of a < k over range n. -/
theorem countP_range_lt (k : Nat) :
    ∀ n, (List.range n).countP (fun a => decide (a < k)) = min n k := by
  intro n
  induction n with
  | zero => simp
  | succ n ih =>
    rw [List.range_succ, List.countP_append, ih]
    by_cases hk : n < k <;> simp [List.countP_cons, hk] <;> omega

/-- Full-cell count of one whole grid row whose row band fits in the
    height: the floor w / ts columns are full. -/
theorem countP_row_full (w h ts b cw : Nat) (hts : 0 < ts)
    (hrow : ts * b + ts ≤ h) (hcw : w / ts ≤ cw) :
    ((List.range cw).map (fun a => (ts * a, ts * b))).countP
        (fun cell => decide (cell.1 + ts ≤ w ∧ cell.2 + ts ≤ h))
      = w / ts := by
  rw [List.countP_map,
    List.countP_congr (q := fun a => decide (a < w / ts)) ?hiff,
    countP_range_lt]
  · omega
  case hiff =>
    intro a _
    simp only [Function.comp_apply, decide_eq_true_eq]
    constructor
    · rintro ⟨h1, _⟩
      have hr : (a + 1) * ts = ts * a + ts := by ring
      have : a + 1 ≤ w / ts := by
        rw [Nat.le_div_iff_mul_le hts]
        omega
      omega
    · intro hlt
      have hr : (a + 1) * ts = ts * a + ts := by ring
      refine ⟨?_, hrow⟩
      have : (a + 1) * ts ≤ w := by
        rw [← Nat.le_div_iff_mul_le hts]
        omega
      omega

/-- A grid row whose band exceeds the height has no full cells at all. -/
theorem countP_row_outside (w h ts b cw : Nat) (hrow : ¬ ts * b + ts ≤ h) :
    ((List.range cw).map (fun a => (ts * a, ts * b))).countP
        (fun cell => decide (cell.1 + ts ≤ w ∧ cell.2 + ts ≤ h)) = 0 := by
  rw [List.countP_eq_zero]
  intro cell hm
  simp only [List.mem_map, List.mem_range] at hm
  obtain ⟨a, _, rfl⟩ := hm
  simp only [decide_eq_true_eq]
  intro hfull
  exact hrow hfull.2

/-- Sum of a constant over a mapped range. -/
theorem sum_map_range_const (v : Nat) :
    ∀ n, ((List.range n).map (fun _ => v)).sum = n * v := by
  intro n
  simp [List.map_const', List.sum_replicate, smul_eq_mul]

/-- Total full-cell count of the grid: floor(w/ts) times floor(h/ts). -/
theorem countP_grid (w h ts : Nat) (hts : 0 < ts) :
    (gridCells (cellCols w ts) (cellCols h ts) ts).countP
        (fun cell => decide (cell.1 + ts ≤ w ∧ cell.2 + ts ≤ h))
      = w / ts * (h / ts) := by
  rw [gridCells, List.countP_flatten, List.map_map]
  have hcw : w / ts ≤ cellCols w ts := by
    by_cases hz : w % ts ≠ 0 <;> simp [cellCols, hz]
  have hrow : ∀ b, (List.countP
        (fun cell => decide (cell.1 + ts ≤ w ∧ cell.2 + ts ≤ h)) ∘
        fun b => (List.range (cellCols w ts)).map (fun a => (ts * a, ts * b))) b
      = if b < h / ts then w / ts else 0 := by
    intro b
    simp only [Function.comp_apply]
    by_cases hb : ts * b + ts ≤ h
    · rw [countP_row_full w h ts b _ hts hb hcw, if_pos]
      have hr : (b + 1) * ts = ts * b + ts := by ring
      have : b + 1 ≤ h / ts := by
        rw [Nat.le_div_iff_mul_le hts]
        omega
      omega
    · rw [countP_row_outside w h ts b _ hb, if_neg]
      intro hlt
      apply hb
      have hr : (b + 1) * ts = ts * b + ts := by ring
      have : (b + 1) * ts ≤ h := by
        rw [← Nat.le_div_iff_mul_le hts]
        omega
      omega
  rw [List.map_congr_left (fun b _ => hrow b)]
  have hsum : ∀ n, ((List.range n).map
      (fun b => if b < h / ts then w / ts else 0)).sum
      = min n (h / ts) * (w / ts) := by
    intro n
    induction n with
    | zero => simp
    | succ n ih =>
      rw [List.range_succ, List.map_append, List.sum_append, ih]
      by_cases hn : n < h / ts
      · rw [min_eq_left (by omega), min_eq_left (by omega)]
        simp only [List.map_cons, List.map_nil, List.sum_cons, List.sum_nil,
          if_pos hn, Nat.add_zero]
        ring
      · rw [min_eq_right (by omega), min_eq_right (by omega)]
        simp [hn]
  rw [hsum]
  have hch : h / ts ≤ cellCols h ts := by
    by_cases hz : h % ts ≠ 0 <;> simp [cellCols, hz]
  rw [min_eq_right hch, mul_comm]

/-- Final image characterization over the grid fold: a pixel byte holds
    the format output of its own cell's chunk when that cell is full
    (with the chunk index counting only full cells before it), and stays
    at the calloc value 0 otherwise. -/
theorem foldCells_grid_img (fmt : List Int → Nat → Nat → Nat → Int)
    (w h ts ch : Nat) (chunks : Nat → List Int) (hts : 0 < ts)
    (X Y c : Nat) (hX : X < w) (hY : Y < h) (hc : c < ch) :
    (foldCells fmt w h ts ch chunks
        (gridCells (cellCols w ts) (cellCols h ts) ts) (0, fun _ => 0)).2
      ((w * Y + X) * ch + c)
      = if ts * (X / ts) + ts ≤ w ∧ ts * (Y / ts) + ts ≤ h then
          fmt (chunks (Y / ts * (w / ts) + X / ts)) (X % ts) (Y % ts) c
        else 0 := by
  have hXd := Nat.mod_add_div X ts
  have hYd := Nat.mod_add_div Y ts
  have hXm := Nat.mod_lt X hts
  have hYm := Nat.mod_lt Y hts
  by_cases hfull : ts * (X / ts) + ts ≤ w ∧ ts * (Y / ts) + ts ≤ h
  · rw [if_pos hfull]
    obtain ⟨hfw, hfh⟩ := hfull
    have haX : X / ts < cellCols w ts := by
      rw [Nat.div_lt_iff_lt_mul hts]
      have hcov := cellCols_mul_ge w ts hts
      have hmc : cellCols w ts * ts = ts * cellCols w ts := by ring
      omega
    have hbY : Y / ts < cellCols h ts := by
      rw [Nat.div_lt_iff_lt_mul hts]
      have hcov := cellCols_mul_ge h ts hts
      have hmc : cellCols h ts * ts = ts * cellCols h ts := by ring
      omega
    have hrowSplit : (List.range (cellCols w ts)).map
          (fun a => (ts * a, ts * (Y / ts)))
        = (List.range (X / ts)).map (fun a => (ts * a, ts * (Y / ts))) ++
          ((ts * (X / ts), ts * (Y / ts)) ::
            (List.range (cellCols w ts - X / ts - 1)).map
              (fun j => (ts * (X / ts + 1 + j), ts * (Y / ts)))) := by
      conv_lhs => rw [show List.range (cellCols w ts)
          = List.range (X / ts) ++ List.map (fun x => X / ts + x)
              (List.range (1 + (cellCols w ts - X / ts - 1))) from by
        rw [← List.range_add]; congr 1; omega]
      rw [List.range_add, show List.range 1 = [0] from rfl]
      simp only [List.map_append, List.map_map, List.map_cons, List.map_nil,
        List.singleton_append, Function.comp_def, Nat.add_zero]
      congr 2
      apply List.map_congr_left
      intro j _
      rw [show X / ts + (1 + j) = X / ts + 1 + j from by omega]
    have hrowsSplit : List.range (cellCols h ts)
        = List.range (Y / ts) ++ (Y / ts ::
            (List.range (cellCols h ts - Y / ts - 1)).map
              (fun j => Y / ts + 1 + j)) := by
      conv_lhs => rw [show List.range (cellCols h ts)
          = List.range (Y / ts) ++ List.map (fun x => Y / ts + x)
              (List.range (1 + (cellCols h ts - Y / ts - 1))) from by
        rw [← List.range_add]; congr 1; omega]
      rw [List.range_add, show List.range 1 = [0] from rfl]
      simp only [List.map_append, List.map_map, List.map_cons, List.map_nil,
        List.singleton_append, Function.comp_def, Nat.add_zero]
      congr 2
      apply List.map_congr_left
      intro j _
      rw [show Y / ts + (1 + j) = Y / ts + 1 + j from by omega]
    have hgrid : gridCells (cellCols w ts) (cellCols h ts) ts
        = (((List.range (Y / ts)).map (fun b => (List.range (cellCols w ts)).map
              (fun a => (ts * a, ts * b)))).flatten ++
            (List.range (X / ts)).map (fun a => (ts * a, ts * (Y / ts))))
          ++ ((ts * (X / ts), ts * (Y / ts)) ::
            ((List.range (cellCols w ts - X / ts - 1)).map
                (fun j => (ts * (X / ts + 1 + j), ts * (Y / ts))) ++
              ((List.range (cellCols h ts - Y / ts - 1)).map
                  (fun j => (List.range (cellCols w ts)).map
                    (fun a => (ts * a, ts * (Y / ts + 1 + j))))).flatten)) := by
      rw [gridCells, hrowsSplit]
      simp only [List.map_append, List.map_cons, List.map_map,
        List.flatten_append, List.flatten_cons, Function.comp_def]
      rw [hrowSplit]
      simp only [List.cons_append, List.append_assoc]
    rw [hgrid, foldCells_append]
    have hblobA : (foldCells fmt w h ts ch chunks
        (((List.range (Y / ts)).map (fun b => (List.range (cellCols w ts)).map
            (fun a => (ts * a, ts * b)))).flatten ++
          (List.range (X / ts)).map (fun a => (ts * a, ts * (Y / ts))))
        (0, fun _ => 0)).1 = Y / ts * (w / ts) + X / ts := by
      rw [foldCells_blob, List.countP_append]
      have hcw : w / ts ≤ cellCols w ts := by
        by_cases hz : w % ts ≠ 0 <;> simp [cellCols, hz]
      have hhead : (((List.range (Y / ts)).map
          (fun b => (List.range (cellCols w ts)).map
            (fun a => (ts * a, ts * b)))).flatten).countP
          (fun cell => decide (cell.1 + ts ≤ w ∧ cell.2 + ts ≤ h))
          = Y / ts * (w / ts) := by
        rw [List.countP_flatten, List.map_map]
        rw [List.map_congr_left (g := fun _ => w / ts) ?hrows]
        · exact sum_map_range_const (w / ts) (Y / ts)
        case hrows =>
          intro b hb
          simp only [List.mem_range] at hb
          simp only [Function.comp_apply]
          apply countP_row_full w h ts b _ hts _ hcw
          have : ts * (b + 1) ≤ ts * (Y / ts) := mul_le_mul_left' (by omega) ts
          have hr : ts * (b + 1) = ts * b + ts := by ring
          omega
      have htail : ((List.range (X / ts)).map
          (fun a => (ts * a, ts * (Y / ts)))).countP
          (fun cell => decide (cell.1 + ts ≤ w ∧ cell.2 + ts ≤ h)) = X / ts := by
        have hlen : ((List.range (X / ts)).map
            (fun a => (ts * a, ts * (Y / ts)))).length = X / ts := by simp
        refine (List.countP_eq_length.mpr ?_).trans hlen
        intro cell hm
        simp only [List.mem_map, List.mem_range] at hm
        obtain ⟨a, ha, rfl⟩ := hm
        simp only [decide_eq_true_eq]
        constructor
        · have : ts * (a + 1) ≤ ts * (X / ts) := mul_le_mul_left' (by omega) ts
          have hr : ts * (a + 1) = ts * a + ts := by ring
          omega
        · exact hfh
      rw [hhead, htail]
      simp
    simp only [foldCells]
    rw [if_neg (by omega)]
    rw [foldCells_img_miss fmt w h ts ch chunks X Y c hX hc _ _ ?hmiss]
    · dsimp only
      rw [hblobA, formatWrite_pixel fmt ts ch w _ _ _ _ X Y c hX hc,
        if_pos ⟨by omega, by omega, by omega, by omega⟩]
      congr 1 <;> omega
    case hmiss =>
      intro cell hm hcw hch2
      rcases List.mem_append.mp hm with hm1 | hm1
      · simp only [List.mem_map, List.mem_range] at hm1
        obtain ⟨j, hj, rfl⟩ := hm1
        rintro ⟨hc1, hc2, _, _⟩
        have := cell_eq_of_contains hc1 hc2
        omega
      · simp only [List.mem_flatten, List.mem_map, List.mem_range] at hm1
        obtain ⟨l, ⟨j, hj, rfl⟩, hcl⟩ := hm1
        simp only [List.mem_map, List.mem_range] at hcl
        obtain ⟨a, ha, rfl⟩ := hcl
        rintro ⟨_, _, hc3, hc4⟩
        have := cell_eq_of_contains hc3 hc4
        omega
  · rw [if_neg hfull]
    apply foldCells_img_miss fmt w h ts ch chunks X Y c hX hc
    intro cell hm h1 h2
    simp only [gridCells, List.mem_flatten, List.mem_map, List.mem_range] at hm
    obtain ⟨l, ⟨b, hb, rfl⟩, hcl⟩ := hm
    simp only [List.mem_map, List.mem_range] at hcl
    obtain ⟨a, ha, rfl⟩ := hcl
    rintro ⟨hc1, hc2, hc3, hc4⟩
    have ha' := cell_eq_of_contains hc1 hc2
    have hb' := cell_eq_of_contains hc3 hc4
    subst ha'
    subst hb'
    exact hfull ⟨h1, h2⟩

/-- C9: in the decode tile loop, every grid cell whose tile would extend
    past the image width or height is skipped entirely: the total payload
    consumption is one chunk per full cell only — floor(w/ts) ×
    floor(h/ts) chunks, with the k-th full cell in row-major order
    consuming exactly chunk k, so full tiles are unaffected by the skips —
    and every output byte belonging to a partial cell keeps its calloc
    value 0, while every byte of a full cell's region holds the format
    collaborator's output for that cell's own chunk. -/
theorem C9_partial_tiles_skipped (fmt : List Int → Nat → Nat → Nat → Int)
    (chunks : Nat → List Int) (width height channels tile_size : Nat)
    (hts : 0 < tile_size) :
    (AkoDecode fmt width height channels tile_size chunks).blob
        = width / tile_size * (height / tile_size) ∧
      (∀ X Y c, X < width → Y < height → c < channels →
        (width < tile_size * (X / tile_size) + tile_size ∨
          height < tile_size * (Y / tile_size) + tile_size) →
        (AkoDecode fmt width height channels tile_size chunks).img
          ((width * Y + X) * channels + c) = 0) ∧
      (∀ X Y c, X < width → Y < height → c < channels →
        tile_size * (X / tile_size) + tile_size ≤ width →
        tile_size * (Y / tile_size) + tile_size ≤ height →
        (AkoDecode fmt width height channels tile_size chunks).img
          ((width * Y + X) * channels + c)
          = fmt (chunks (Y / tile_size * (width / tile_size) + X / tile_size))
              (X % tile_size) (Y % tile_size) c) := by
  have hfold := decodeLoop_eq_foldCells fmt width height tile_size channels
    chunks (sTilesNo width height tile_size) ⟨0, 0, 0, fun _ => 0⟩
  have hgrid := visit_eq_grid width height tile_size hts
  refine ⟨?_, ?_, ?_⟩
  · show (decodeLoop fmt width height tile_size channels chunks
      (sTilesNo width height tile_size) ⟨0, 0, 0, fun _ => 0⟩).blob = _
    rw [hfold.1]
    dsimp only
    rw [hgrid, foldCells_blob, countP_grid width height tile_size hts]
    simp
  · intro X Y c hX hY hc hpart
    show (decodeLoop fmt width height tile_size channels chunks
      (sTilesNo width height tile_size) ⟨0, 0, 0, fun _ => 0⟩).img _ = _
    rw [hfold.2]
    dsimp only
    rw [hgrid, foldCells_grid_img fmt width height tile_size channels chunks
      hts X Y c hX hY hc, if_neg (by omega)]
  · intro X Y c hX hY hc h1 h2
    show (decodeLoop fmt width height tile_size channels chunks
      (sTilesNo width height tile_size) ⟨0, 0, 0, fun _ => 0⟩).img _ = _
    rw [hfold.2]
    dsimp only
    rw [hgrid, foldCells_grid_img fmt width height tile_size channels chunks
      hts X Y c hX hY hc, if_pos ⟨h1, h2⟩]

/-- Witness for C9: a 5 × 3 image with 2 × 2 tiles and 1 channel.  The
    right column of cells (col = 4) is partial, so only 2 × 1 full cells
    consume chunks; the pixel (4, 0) lies in a partial cell and stays 0;
    the pixel (2, 1) lies in full cell (2, 0), the second full cell, and
    receives the format output of chunk 1. -/
theorem C9_witness :
    (0 < 2 ∧ (4 < 5 ∧ 0 < 3 ∧ 0 < 1) ∧ (2 < 5 ∧ 1 < 3 ∧ 0 < 1)) ∧
      (AkoDecode (fun p x y c => p.getD 0 0 + (x : Int) + y + c)
          5 3 1 2 (fun n => [(n : Int) + 7])).blob = 5 / 2 * (3 / 2) ∧
      (AkoDecode (fun p x y c => p.getD 0 0 + (x : Int) + y + c)
          5 3 1 2 (fun n => [(n : Int) + 7])).img ((5 * 0 + 4) * 1 + 0) = 0 ∧
      (AkoDecode (fun p x y c => p.getD 0 0 + (x : Int) + y + c)
          5 3 1 2 (fun n => [(n : Int) + 7])).img ((5 * 1 + 2) * 1 + 0)
        = (fun p x y c => p.getD 0 0 + (x : Int) + y + c)
            ((fun n => [(n : Int) + 7]) (1 / 2 * (5 / 2) + 2 / 2))
            (2 % 2) (1 % 2) 0 := by
  have h := C9_partial_tiles_skipped
    (fun p x y c => p.getD 0 0 + (x : Int) + y + c)
    (fun n => [(n : Int) + 7]) 5 3 1 2 (by decide)
  exact ⟨⟨by decide, ⟨by decide, by decide, by decide⟩,
      ⟨by decide, by decide, by decide⟩⟩,
    h.1,
    h.2.1 4 0 0 (by decide) (by decide) (by decide) (by decide),
    h.2.2 2 1 0 (by decide) (by decide) (by decide) (by decide) (by decide)⟩

/-- C4 counterexample: the claim puts HL (top-right) before LH
    (bottom-left).  On the 4 × 4 single-channel tile with plane values
    0..15 (Haar, q = 1, g = 0) the stream position right after the header
    holds 2 — the first column-major entry of the bottom-left quadrant —
    while the claimed HL-first layout would put 1 there. -/
theorem C4_counterexample :
    (DwtTransform .haar (fun _ _ => 1) (fun _ => 1) (fun _ => 0) 4 4 1
        (fun _ => (List.range 16).map (fun n => (n : Int)))).getD 5 0 = 2 ∧
      (driverAux .haar claimRecordC4 (fun _ _ => 1) (fun _ => 1) (fun _ => 0)
        (TileTotalLifts (4 + 4) 4 4) 1 (levelList 4 4) 0 0
        (fun _ => (List.range 16).map (fun n => (n : Int))) (4, 4)).getD 5 0 = 1 ∧
      (2 : Int) ≠ 1 :=
  ⟨by with_unfolding_all rfl, by with_unfolding_all rfl, by decide⟩
